import Mathlib

/-!
Shallow embedding of the ASR post-processing core of this repository
(src/asr_postprocess/utils.py, src/postprocess/ru.py, src/postprocess/kk.py,
src/postprocess/lm.py, src/pipeline.py).

Strings are modelled as lists of Unicode code points (`Str := List Nat`).
The Unicode character classes and case mappings used by the Python code
(str.isupper, str.islower, str.upper, str.lower, the regex classes
`\w` and `\p{L}`) are modelled over the character repertoire the repository
actually manipulates: ASCII plus the Cyrillic block U+0400..U+04FF.

External collaborators (the SymSpell term index, the transformers language
model) are parameters: a term index is a function from a lowercased word to
its ranked suggestion terms, a reranker is a function from the candidate
list to the selected sentence, exactly the narrow interfaces the code uses.
-/

abbrev Str := List Nat

def String.codes (s : String) : Str := s.toList.map Char.toNat

/-- Python `\w` with re.UNICODE (src/asr_postprocess/utils.py WORD_RE),
over the ASCII + Cyrillic repertoire: digits, ASCII letters, underscore,
and the Cyrillic block U+0400..U+04FF (all of whose code points are letters). -/
def isWordChar (n : Nat) : Bool :=
  decide ((48 ≤ n ∧ n ≤ 57) ∨ (65 ≤ n ∧ n ≤ 90) ∨ (97 ≤ n ∧ n ≤ 122) ∨
    n = 95 ∨ (0x400 ≤ n ∧ n ≤ 0x4FF))

/-- Unicode letter class `\p{L}` (src/postprocess/ru.py WORD_RE), same repertoire. -/
def isLetter (n : Nat) : Bool :=
  decide ((65 ≤ n ∧ n ≤ 90) ∨ (97 ≤ n ∧ n ≤ 122) ∨ (0x400 ≤ n ∧ n ≤ 0x4FF))

/-- Uppercase letters of the repertoire: ASCII A-Z, Cyrillic А-Я, Ё. -/
def charIsUpper (n : Nat) : Bool :=
  decide ((65 ≤ n ∧ n ≤ 90) ∨ (0x410 ≤ n ∧ n ≤ 0x42F) ∨ n = 0x401)

/-- Lowercase letters of the repertoire: ASCII a-z, Cyrillic а-я, ё. -/
def charIsLower (n : Nat) : Bool :=
  decide ((97 ≤ n ∧ n ≤ 122) ∨ (0x430 ≤ n ∧ n ≤ 0x44F) ∨ n = 0x451)

/-- A cased character (the Python notion used by str.isupper / str.islower). -/
def isCased (n : Nat) : Bool := charIsUpper n || charIsLower n

def charToUpper (n : Nat) : Nat :=
  if 97 ≤ n ∧ n ≤ 122 then n - 32
  else if 0x430 ≤ n ∧ n ≤ 0x44F then n - 32
  else if n = 0x451 then 0x401
  else n

def charToLower (n : Nat) : Nat :=
  if 65 ≤ n ∧ n ≤ 90 then n + 32
  else if 0x410 ≤ n ∧ n ≤ 0x42F then n + 32
  else if n = 0x401 then 0x451
  else n

def lowerStr (s : Str) : Str := s.map charToLower

def upperStr (s : Str) : Str := s.map charToUpper

/-- Python str.isupper: at least one cased character and no cased character
is lowercase. -/
def pyIsUpper (s : Str) : Bool :=
  s.any isCased && s.all (fun c => !(isCased c) || charIsUpper c)

/-- Python str.islower: at least one cased character and no cased character
is uppercase. -/
def pyIsLower (s : Str) : Bool :=
  s.any isCased && s.all (fun c => !(isCased c) || charIsLower c)

/-- Model of `split_tokens_with_delimiters` (src/asr_postprocess/utils.py).  The Python
code walks the matches of `\w+` and emits the gap before each match, the match
itself, and the trailing gap.  Since the matches of `\w+` are exactly the
maximal runs of word characters, the emitted list is exactly the partition of
the text into maximal runs of characters of equal word-character class, which
is what this structural recursion computes. -/
def split_tokens_with_delimiters : Str → List Str
  | [] => []
  | [c] => [[c]]
  | c :: d :: rest =>
    match split_tokens_with_delimiters (d :: rest) with
    | [] => [[c]]
    | t :: ts =>
      if isWordChar c == isWordChar d then (c :: t) :: ts else [c] :: t :: ts

/-- Model of `is_word` (src/asr_postprocess/utils.py): WORD_RE.fullmatch, i.e. nonempty
and made of word characters only. -/
def is_word (t : Str) : Bool := !t.isEmpty && t.all isWordChar

/-- Model of `preserve_case` (nested in apply_replacements, src/asr_postprocess/utils.py).
Branch order as in the source: empty sample, titlecase, all-caps, lowercase,
mixed fallback.  `src[:1].isupper()` on a one-character slice is exactly
"the first character is an uppercase cased character". -/
def preserve_case (src dst : Str) : Str :=
  match src with
  | [] => dst
  | c :: rest =>
    if charIsUpper c && pyIsLower rest then
      match dst with
      | [] => []
      | d :: ds => charToUpper d :: lowerStr ds
    else if pyIsUpper (c :: rest) then upperStr dst
    else if pyIsLower (c :: rest) then lowerStr dst
    else dst

/-- The normalized map built by `apply_replacements`: keys lowercased. -/
def normKeys (repl : List (Str × Str)) : List (Str × Str) :=
  repl.map (fun p => (lowerStr p.1, p.2))

/-- The per-token body of the `apply_replacements` loop. -/
def tokenSub (repl : List (Str × Str)) (t : Str) : Str :=
  if is_word t then
    match (normKeys repl).lookup (lowerStr t) with
    | some v => preserve_case t v
    | none => t
  else t

/-- Model of `apply_replacements` (src/asr_postprocess/utils.py), with the default
`case_insensitive=True` used by every caller in the repository. -/
def apply_replacements (text : Str) (repl : List (Str × Str)) : Str :=
  if text.isEmpty || repl.isEmpty then text
  else ((split_tokens_with_delimiters text).map (tokenSub repl)).flatten

/-- Model of `_match_case_like` (src/postprocess/ru.py and src/postprocess/kk.py).
Note: in the title-like branch the rest of the target is NOT lowercased
("first char upper, rest any"), and the fallback is `target.lower()`. -/
def _match_case_like (sample target : Str) : Str :=
  if pyIsUpper sample then upperStr target
  else if charIsUpper (sample.headD 0) then
    match target with
    | [] => []
    | d :: ds => charToUpper d :: ds
  else lowerStr target

/-- Extension characters of the word regex of src/postprocess/ru.py
(the bracket class of WORD_RE): letters, hyphen (45) and apostrophe (39). -/
def isExtChar (n : Nat) : Bool := isLetter n || n == 45 || n == 39

/-- One `pattern.sub` pass of `_replace_common_errors` for one table entry:
the pattern is the escaped key with an IGNORECASE flag, guarded by the
lookarounds `(?<!\p{L})` and `(?!\p{L})`.  `prev` is the character of the
ORIGINAL text preceding the scan position (re.sub matches against the
original string, so the lookbehind sees the original characters); the fuel
is an upper bound on scan steps - the input length suffices because each
step consumes at least one character. -/
def subScanF (wrong right : Str) : Nat → Option Nat → Str → Str
  | 0, _, s => s
  | _ + 1, _, [] => []
  | fuel + 1, prev, c :: cs =>
    let s := c :: cs
    let behindOK : Bool := match prev with | none => true | some p => !(isLetter p)
    let matched := s.take wrong.length
    let after := s.drop wrong.length
    let aheadOK : Bool := match after with | [] => true | a :: _ => !(isLetter a)
    if behindOK && (lowerStr matched == lowerStr wrong) && aheadOK then
      _match_case_like matched right ++ subScanF wrong right fuel (some (matched.getLastD 0)) after
    else
      c :: subScanF wrong right fuel (some c) cs

/-- Model of `_replace_common_errors` (src/postprocess/ru.py, src/postprocess/kk.py):
iterate the table entries in order, each one as a whole-word,
case-insensitive `re.sub` with case reapplied via `_match_case_like`.
An empty key is guarded out (the tables of the repository have no empty keys). -/
def _replace_common_errors (text : Str) (repl : List (Str × Str)) : Str :=
  repl.foldl (fun acc p => if p.1.isEmpty then acc else subScanF p.1 p.2 acc.length none acc) text

/-- The matches of `WORD_RE.finditer` (src/postprocess/ru.py): each match
of that regex is a maximal letter run followed
greedily by a run of letters/hyphens/apostrophes, together with its
(start, end) span in the original text.  Fuel bounds the scan steps;
the input length suffices. -/
def findMatchesF (pos : Nat) : Nat → Str → List (Str × Nat × Nat)
  | 0, _ => []
  | _ + 1, [] => []
  | fuel + 1, c :: cs =>
    if isLetter c then
      let letters := (c :: cs).takeWhile isLetter
      let rest1 := (c :: cs).dropWhile isLetter
      let ext := rest1.takeWhile isExtChar
      let tok := letters ++ ext
      (tok, pos, pos + tok.length) ::
        findMatchesF (pos + tok.length) fuel (rest1.dropWhile isExtChar)
    else
      findMatchesF (pos + 1) fuel cs

def findWordMatches (s : Str) : List (Str × Nat × Nat) := findMatchesF 0 s.length s

/-- Model of `re.fullmatch(_WORD_RE, token)`: the whole token matches
WORD_RE, i.e. it starts with a letter and all remaining characters are
letters, hyphens or apostrophes. -/
def fullmatchWord (t : Str) : Bool :=
  match t with
  | [] => false
  | c :: cs => isLetter c && cs.all isExtChar

/-- Python slice assignment `chars[start:stop] = repl` (indices clamp like
Python slices do). -/
def splice (l : Str) (start stop : Nat) (repl : Str) : Str :=
  l.take start ++ repl ++ l.drop stop

/-- Order-preserving deduplication (the seen-set loops of the source). -/
def dedupFirst (l : List Str) : List Str :=
  l.foldl (fun acc c => if acc.contains c then acc else acc ++ [c]) []

/-- A loaded SymSpell index, seen through the only interface the code uses:
`sym.lookup(word, Verbosity.TOP, ..., include_unknown=True)` for a lowercased
word, returning the ranked suggestion terms. -/
abbrev SymIdx := Str → List Str

/-- Model of `_symspell_candidates` (src/postprocess/ru.py): lowercase the word, look
it up, deduplicate the suggestion terms preserving order, keep at most 3. -/
def _symspell_candidates (lookupFn : SymIdx) (word : Str) : List Str :=
  (dedupFirst (lookupFn (lowerStr word))).take 3

/-- The body of the correction loop of `_correct_with_symspell` for one
enumerated (index, (token, span)) match, acting on the running
(text_chars, ambiguous) accumulator.  Note that the span indices come from
the ORIGINAL text but are applied to the current, possibly already
re-spliced character list - exactly as in the source. -/
def correctStep (lookupFn : SymIdx) (min_len : Nat)
    (acc : Str × List (Nat × List Str)) (im : Nat × Str × Nat × Nat) :
    Str × List (Nat × List Str) :=
  let idx := im.1
  let token := im.2.1
  let start := im.2.2.1
  let stop := im.2.2.2
  if !(fullmatchWord token) || decide (token.length < min_len) then acc
  else
    match _symspell_candidates lookupFn token with
    | [] => acc
    | best :: more =>
      if !(lowerStr best == lowerStr token) then
        (splice acc.1 start stop (_match_case_like token best),
         acc.2 ++ [(idx, best :: more)])
      else acc

/-- Model of `_correct_with_symspell` (src/postprocess/ru.py, src/postprocess/kk.py). -/
def _correct_with_symspell (lookupFn : SymIdx) (text : Str) (min_len : Nat := 3) :
    Str × List (Nat × List Str) :=
  let ms := findWordMatches text
  if ms.isEmpty then (text, [])
  else (ms.enum).foldl (correctStep lookupFn min_len) (text, [])

/-- The variant-building loop of `_build_sentence_candidates`: for up to the
first 3 ambiguities, substitute the second-ranked candidate for that token
into a fresh copy of the base text; stop once `limit` variants collected. -/
def buildVariantsLoop (base : Str) (tas : List (Str × Nat × Nat)) (limit : Nat) :
    List (Nat × List Str) → List Str → List Str
  | [], variants => variants
  | (idx, cands) :: rest, variants =>
    if decide (cands.length < 2) then buildVariantsLoop base tas limit rest variants
    else
      let ta := tas.getD idx ([], 0, 0)
      let alt := _match_case_like ta.1 (cands.getD 1 [])
      let v := splice base ta.2.1 ta.2.2 alt
      let variants2 := variants ++ [v]
      if decide (limit ≤ variants2.length) then variants2
      else buildVariantsLoop base tas limit rest variants2

/-- Model of `_build_sentence_candidates` (src/postprocess/ru.py, src/postprocess/kk.py). -/
def _build_sentence_candidates (base : Str) (tas : List (Str × Nat × Nat))
    (ambiguous : List (Nat × List Str)) (limit : Nat := 5) : List Str :=
  if ambiguous.isEmpty then [base]
  else dedupFirst (buildVariantsLoop base tas limit (ambiguous.take 3) [base])

/-- The candidate list assembled by postprocess_text_ru / postprocess_text_kk
after the dictionary pass: with a loaded index, the fuzzy-corrected text
followed by the sentence variants (built against the token spans of the
PRE-correction text, as in the source); without one, just the
dictionary-corrected text. -/
def candidatesOf (sym : Option SymIdx) (text1 : Str) : List Str :=
  match sym with
  | some lk =>
    let tas := findWordMatches text1
    let ca := _correct_with_symspell lk text1
    ca.1 :: _build_sentence_candidates ca.1 tas ca.2
  | none => [text1]

/-- The tail of postprocess_text_ru / postprocess_text_kk after the
dictionary pass and index load: candidate assembly, the
`if text not in candidates: candidates.insert(0, text)` step, order-preserving
deduplication, and the optional LM rerank (`lmRank = none` models the
`from .lm import rank_by_causal_lm` failing, which returns the first unique
candidate). -/
def pipelineTail (sym : Option SymIdx) (lmRank : Option (List Str → Str))
    (enableLM : Bool) (text1 : Str) : Str :=
  let cands0 := candidatesOf sym text1
  let cands := if cands0.contains text1 then cands0 else text1 :: cands0
  let uniq := dedupFirst cands
  if enableLM && decide (1 < uniq.length) then
    match lmRank with
    | none => uniq.headD []
    | some rank => rank uniq
  else uniq.headD []

/-- The process environment and external resources seen by
`_load_symspell_ru` / `_load_symspell_kk` and the LM rerank stage:
whether the symspellpy import succeeded, the *_SYMSPELL_DICT variable,
the result of constructing+loading a SymSpell index from a path
(`none` models a missing file or a falsy load_dictionary), the
ENABLE_LM_RERANK_* flag, and the external LM ranker. -/
structure LoadEnv where
  symspellAvailable : Bool
  envDictPath : Option Str
  mkIndex : Str → Option SymIdx
  lmEnvFlag : Bool
  lmRank : Option (List Str → Str)

/-- Model of `_load_symspell_ru` / `_load_symspell_kk` with the module-level cache
made explicit: takes the cache, returns (result, new cache).  A cached
index is returned immediately, ignoring every argument; a load failure
returns `none` and leaves the cache empty. -/
def _load_symspell (env : LoadEnv) (defaultPath : Str) (cache : Option SymIdx)
    (dictionary_path : Option Str) : Option SymIdx × Option SymIdx :=
  match cache with
  | some s => (some s, some s)
  | none =>
    if !env.symspellAvailable then (none, none)
    else
      match env.mkIndex (dictionary_path.getD (env.envDictPath.getD defaultPath)) with
      | some idx => (some idx, some idx)
      | none => (none, none)

/-- Model of `postprocess_text_ru` / `postprocess_text_kk` generically over the
language parameterization (replacement table, default dictionary path),
with the module-level index cache threaded explicitly.  Empty text returns
immediately (before the dictionary pass and the load).  `enable_lm_rerank`
defaults to the environment flag when absent, as in the source. -/
def postprocess_cached (table : List (Str × Str)) (defaultPath : Str)
    (env : LoadEnv) (cache : Option SymIdx) (dictionary_path : Option Str)
    (enable_lm_rerank : Option Bool) (text : Str) : Str × Option SymIdx :=
  if text.isEmpty then (text, cache)
  else
    let text1 := _replace_common_errors text table
    let sc := _load_symspell env defaultPath cache dictionary_path
    (pipelineTail sc.1 env.lmRank (enable_lm_rerank.getD env.lmEnvFlag) text1, sc.2)

/-- Table `_COMMON_REPLACEMENTS_RU` (src/postprocess/ru.py), in insertion order. -/
def _COMMON_REPLACEMENTS_RU : List (Str × Str) :=
  [ ("славо".codes, "слово".codes), ("карова".codes, "корова".codes),
    ("пажалуйста".codes, "пожалуйста".codes), ("счас".codes, "сейчас".codes),
    ("што".codes, "что".codes), ("кагда".codes, "когда".codes),
    ("патамучто".codes, "потому что".codes) ]

/-- Table `_COMMON_REPLACEMENTS_KK` (src/postprocess/kk.py), in insertion order. -/
def _COMMON_REPLACEMENTS_KK : List (Str × Str) :=
  [ ("bugyn".codes, "бүгін".codes), ("maktap".codes, "мектеп".codes),
    ("sagat".codes, "сағат".codes), ("balalar".codes, "балалар".codes),
    ("joly".codes, "жолы".codes) ]

def ruDefaultDictPath : Str := "dicts/ru_frequency_dictionary.txt".codes

def kkDefaultDictPath : Str := "dicts/kk_frequency_dictionary.txt".codes

/-- Model of `postprocess_text_ru` (src/postprocess/ru.py). -/
def postprocess_text_ru (cache : Option SymIdx) (env : LoadEnv)
    (dictionary_path : Option Str) (enable_lm_rerank : Option Bool)
    (text : Str) : Str × Option SymIdx :=
  postprocess_cached _COMMON_REPLACEMENTS_RU ruDefaultDictPath env cache
    dictionary_path enable_lm_rerank text

/-- Model of `postprocess_text_kk` (src/postprocess/kk.py). -/
def postprocess_text_kk (cache : Option SymIdx) (env : LoadEnv)
    (dictionary_path : Option Str) (enable_lm_rerank : Option Bool)
    (text : Str) : Str × Option SymIdx :=
  postprocess_cached _COMMON_REPLACEMENTS_KK kkDefaultDictPath env cache
    dictionary_path enable_lm_rerank text

/-- Stable insertion of one scored candidate into a descending-sorted list:
the candidate walks past strictly greater scores only and is placed before
the first element of smaller-or-equal score.  The foldr inserts earlier
candidates last, so on tied scores the earlier candidate ends up first -
folding it over the list reproduces the stable Python sort
`sorted(candidates, key=lambda x: x[1], reverse=True)`. -/
def insertDesc (x : Str × Int) : List (Str × Int) → List (Str × Int)
  | [] => [x]
  | y :: ys => if decide (x.2 < y.2) then y :: insertDesc x ys else x :: y :: ys

def sortDesc (l : List (Str × Int)) : List (Str × Int) := l.foldr insertDesc []

/-- The scoring loop of `rerank_with_language_model`: best_text starts as the
input text, best_score as minus infinity (modelled by `none`); a scorer
failure on a candidate (modelled by `none`) skips that candidate; a strictly
greater score replaces the best (ties keep the earlier candidate).  Scores
are modelled as integers - only their ordering matters here. -/
def scoreLoopAux (f : Str → Option Int) : List (Str × Int) → Str → Option Int → Str
  | [], best, _ => best
  | c :: rest, best, bestScore =>
    match f c.1 with
    | none => scoreLoopAux f rest best bestScore
    | some s =>
      match bestScore with
      | none => scoreLoopAux f rest c.1 (some s)
      | some b =>
        if decide (b < s) then scoreLoopAux f rest c.1 (some s)
        else scoreLoopAux f rest best bestScore

/-- Model of `rerank_with_language_model` (src/asr_postprocess/utils.py).  A raising
`generate_candidates_fn` is modelled by `none`; a raising `score_with_lm_fn`
by a function returning `none`. -/
def rerank_with_language_model (text : Str)
    (generate_candidates_fn : Str → Option (List (Str × Int)))
    (score_with_lm_fn : Option (Str → Option Int)) (top_k : Nat := 3) : Str :=
  match generate_candidates_fn text with
  | none => text
  | some cands =>
    if cands.isEmpty then text
    else
      let sorted := (sortDesc cands).take top_k
      match score_with_lm_fn with
      | none => (sorted.headD ([], 0)).1
      | some f => scoreLoopAux f sorted text none

/-- The keyword parameters accepted by `postprocess_text_ru`
(src/postprocess/ru.py line 161; all its optional parameters are
keyword-only). -/
def postprocess_text_ru_keyword_params : List String :=
  [ "dictionary_path", "enable_lm_rerank", "lm_model_name", "max_edit_distance" ]

/-- The keyword parameters accepted by `postprocess_text_kk`
(src/postprocess/kk.py line 139). -/
def postprocess_text_kk_keyword_params : List String :=
  [ "dictionary_path", "enable_lm_rerank", "lm_model_name", "max_edit_distance" ]

/-- The keyword arguments `postprocess_transcription` (src/pipeline.py)
passes to postprocess_text_ru / postprocess_text_kk. -/
def pipeline_call_keywords : List String := [ "use_language_model" ]

/-- A Python call binds successfully only if every keyword argument names a
parameter of the callee; otherwise it raises TypeError. -/
def acceptsKeywords (params call : List String) : Bool :=
  call.all (fun k => params.contains k)

/-- Fixture for C1: a term index whose only suggestion for the lowercased
query word is another term at edit distance 1 ("пайду" -> "пойду"),
and the identity suggestion for everything else (Verbosity.TOP with
include_unknown=True always returns at least the input). -/
def lkpC1 : SymIdx := fun w => if w == ("пайду".codes) then [ "пойду".codes ] else [w]

/-- Fixture for C1: an environment in which the SymSpell import and the
dictionary load succeed and LM reranking is disabled. -/
def envC1 : LoadEnv :=
  { symspellAvailable := true, envDictPath := none,
    mkIndex := fun _ => some lkpC1, lmEnvFlag := false, lmRank := none }

/-- Fixture for the C1 witness: an index that suggests every queried word
itself, so fuzzy correction never changes the text. -/
def lkpId : SymIdx := fun w => [w]

/-- Fixture for C4: suggestions of a different length than the queried
tokens ("aaa" -> "xxxx", "bbb" -> "zzz"). -/
def lkpC4 : SymIdx := fun w =>
  if w == ("aaa".codes) then [ "xxxx".codes ]
  else if w == ("bbb".codes) then [ "zzz".codes ]
  else [w]

/-- Fixture for C6: a candidate generator returning two scored candidates. -/
def genC6 : Str → Option (List (Str × Int)) :=
  fun _ => some [ ("a".codes, 1), ("b".codes, 0) ]

/-- Fixture for C6: a scorer that fails (raises) on every candidate. -/
def failAllC6 : Str → Option Int := fun _ => none

/-- Fixture for C6: a candidate generator returning two candidates with TIED
prior scores, to exercise the stability of the pre-rerank sort. -/
def genTieC6 : Str → Option (List (Str × Int)) :=
  fun _ => some [ ("a".codes, 1), ("b".codes, 1) ]

/-- Fixture for C7: SymSpell imports fine but the dictionary resource is
missing or malformed, so every load attempt fails. -/
def envFail : LoadEnv :=
  { symspellAvailable := true, envDictPath := none,
    mkIndex := fun _ => none, lmEnvFlag := false, lmRank := none }

/-- Fixture for C8: the replacement table of the dictionary correctness
example given in the spec. -/
def tblC8 : List (Str × Str) := [ ("славо".codes, "слово".codes) ]

/-- Fixture for C9: a table in which no replacement value is itself a table
key, yet one value ("b c") contains a token ("c") that is a key. -/
def tblC9 : List (Str × Str) := [ ("a".codes, "b c".codes), ("c".codes, "d".codes) ]

/-- The word-character class of a token (class of its first character). -/
def tokClass (t : Str) : Bool := isWordChar (t.headD 0)

/-- A valid token: nonempty and uniform in word-character class. -/
def uniformTok (t : Str) : Prop := t ≠ [] ∧ ∀ c ∈ t, isWordChar c = tokClass t

/-- The head token of the list, if any, has a class different from `b`. -/
def headClassNe (b : Bool) : List Str → Prop
  | [] => True
  | u :: _ => b ≠ tokClass u

/-- A well-formed tokenization: valid tokens with alternating classes. -/
def altChain : List Str → Prop
  | [] => True
  | t :: ts => uniformTok t ∧ headClassNe (tokClass t) ts ∧ altChain ts

/-- Character spans of a token list starting at offset `i`. -/
def spansOf (i : Nat) : List Str → List (Nat × Nat)
  | [] => []
  | t :: ts => (i, i + t.length) :: spansOf (i + t.length) ts

/-- The spans tile the interval from `i` to `j`: each span starts where the
previous one ended, is nonempty, and the last one ends at `j` - i.e. the
spans are non-overlapping and cover the interval exactly once. -/
def coversExactly (i : Nat) (l : List (Nat × Nat)) (j : Nat) : Bool :=
  match l with
  | [] => i == j
  | (a, b) :: r => (a == i) && decide (i < b) && coversExactly b r j

/-- The amended side condition of the idempotence claim: every replacement
value is a nonempty single word token and its lowercase form misses every
(lowercased) table key. -/
def goodTable (repl : List (Str × Str)) : Prop :=
  ∀ p ∈ repl, p.2 ≠ [] ∧ p.2.all isWordChar = true ∧
    (normKeys repl).lookup (lowerStr p.2) = none

instance (repl : List (Str × Str)) : Decidable (goodTable repl) := by
  unfold goodTable
  infer_instance

/-! ### Character-level lemmas -/

theorem charToLower_charToUpper (n : Nat) :
    charToLower (charToUpper n) = charToLower n := by
  simp only [charToUpper, charToLower]
  split_ifs <;> omega

theorem charToLower_charToLower (n : Nat) :
    charToLower (charToLower n) = charToLower n := by
  simp only [charToLower]
  split_ifs <;> omega

theorem isWordChar_charToUpper (n : Nat) :
    isWordChar (charToUpper n) = isWordChar n := by
  simp only [charToUpper, isWordChar]
  split_ifs <;> (apply decide_eq_decide.mpr; constructor <;> (intro h; omega))

theorem isWordChar_charToLower (n : Nat) :
    isWordChar (charToLower n) = isWordChar n := by
  simp only [charToLower, isWordChar]
  split_ifs <;> (apply decide_eq_decide.mpr; constructor <;> (intro h; omega))

theorem not_upper_and_lower (n : Nat) :
    ¬(charIsUpper n = true ∧ charIsLower n = true) := by
  simp only [charIsUpper, charIsLower, decide_eq_true_eq]
  omega

theorem lowerStr_upperStr (s : Str) : lowerStr (upperStr s) = lowerStr s := by
  simp only [lowerStr, upperStr, List.map_map]
  exact List.map_congr_left fun c _ => charToLower_charToUpper c

theorem lowerStr_lowerStr (s : Str) : lowerStr (lowerStr s) = lowerStr s := by
  simp only [lowerStr, List.map_map]
  exact List.map_congr_left fun c _ => charToLower_charToLower c

/-! ### Tokenizer lemmas -/

theorem split_cons (c : Nat) (cs : Str) :
    ∃ r ts, split_tokens_with_delimiters (c :: cs) = (c :: r) :: ts := by
  induction cs generalizing c with
  | nil => exact ⟨[], [], rfl⟩
  | cons d rest ih =>
    obtain ⟨r', ts', h⟩ := ih d
    simp only [split_tokens_with_delimiters, h]
    cases hb : isWordChar c == isWordChar d
    · exact ⟨[], (d :: r') :: ts', by simp⟩
    · exact ⟨d :: r', ts', by simp⟩

theorem flatten_split (s : Str) : (split_tokens_with_delimiters s).flatten = s := by
  induction s with
  | nil => rfl
  | cons c cs ih =>
    cases cs with
    | nil => rfl
    | cons d rest =>
      cases h : split_tokens_with_delimiters (d :: rest) with
      | nil =>
        rw [h] at ih
        simp at ih
      | cons t ts =>
        rw [h] at ih
        simp only [split_tokens_with_delimiters, h]
        cases hb : isWordChar c == isWordChar d <;>
          simp_all [List.flatten]

theorem split_mem_ne_nil (s : Str) : ∀ t ∈ split_tokens_with_delimiters s, t ≠ [] := by
  induction s with
  | nil => intro t ht; simp [split_tokens_with_delimiters] at ht
  | cons c cs ih =>
    cases cs with
    | nil =>
      intro t ht
      simp only [split_tokens_with_delimiters, List.mem_singleton] at ht
      simp [ht]
    | cons d rest =>
      intro tk htk
      cases h : split_tokens_with_delimiters (d :: rest) with
      | nil => simp only [split_tokens_with_delimiters, h, List.mem_singleton] at htk; simp [htk]
      | cons u ts =>
        rw [h] at ih
        simp only [split_tokens_with_delimiters, h] at htk
        cases hb : isWordChar c == isWordChar d <;> rw [hb] at htk <;>
          simp only [Bool.false_eq_true, if_false, if_true, List.mem_cons] at htk
        · rcases htk with h1 | h1 | h1
          · subst h1; simp
          · subst h1; exact ih _ (List.mem_cons_self _ _)
          · exact ih _ (List.mem_cons_of_mem _ h1)
        · rcases htk with h1 | h1
          · subst h1; simp
          · exact ih _ (List.mem_cons_of_mem _ h1)

theorem uniform_cons_of_uniform {c d : Nat} {rest : Str}
    (h : uniformTok (c :: d :: rest)) : uniformTok (d :: rest) := by
  obtain ⟨-, hall⟩ := h
  have hd : isWordChar d = tokClass (c :: d :: rest) := hall d (by simp)
  refine ⟨by simp, fun x hx => ?_⟩
  have hx' : isWordChar x = tokClass (c :: d :: rest) := hall x (by simp [List.mem_cons] at hx ⊢; tauto)
  simp only [tokClass, List.headD] at hd hx' ⊢
  rw [hx', hd]

theorem uniform_head_eq {c d : Nat} {rest : Str}
    (h : uniformTok (c :: d :: rest)) : isWordChar d = isWordChar c := by
  obtain ⟨-, hall⟩ := h
  have hd := hall d (by simp)
  simpa [tokClass] using hd

theorem split_of_uniform (t : Str) (h : uniformTok t) :
    split_tokens_with_delimiters t = [t] := by
  induction t with
  | nil => exact absurd rfl h.1
  | cons c cs ih =>
    cases cs with
    | nil => rfl
    | cons d rest =>
      have h2 : uniformTok (d :: rest) := uniform_cons_of_uniform h
      have hcd : isWordChar d = isWordChar c := uniform_head_eq h
      simp only [split_tokens_with_delimiters, ih h2, hcd, beq_self_eq_true, if_true]

theorem split_append (t w : Str) (ht : uniformTok t)
    (hw : w = [] ∨ isWordChar (w.headD 0) ≠ tokClass t) :
    split_tokens_with_delimiters (t ++ w) =
      t :: split_tokens_with_delimiters w := by
  induction t with
  | nil => exact absurd rfl ht.1
  | cons c cs ih =>
    cases cs with
    | nil =>
      cases w with
      | nil => rfl
      | cons e w' =>
        obtain ⟨r, ts, h⟩ := split_cons e w'
        have hne : isWordChar e ≠ isWordChar c := by
          rcases hw with h' | h'
          · cases h'
          · simpa [tokClass] using h'
        have hb : (isWordChar c == isWordChar e) = false := by
          simp only [beq_eq_false_iff_ne]
          exact fun hcc => hne hcc.symm
        simp only [List.singleton_append, split_tokens_with_delimiters, h, hb, if_false,
          Bool.false_eq_true]
    | cons d rest =>
      have h2 : uniformTok (d :: rest) := uniform_cons_of_uniform ht
      have hcd : isWordChar d = isWordChar c := uniform_head_eq ht
      have hw2 : w = [] ∨ isWordChar (w.headD 0) ≠ tokClass (d :: rest) := by
        rcases hw with h' | h'
        · exact Or.inl h'
        · refine Or.inr ?_
          simpa [tokClass, hcd] using h'
      have ihh := ih h2 hw2
      have hjoin : (c :: d :: rest) ++ w = c :: d :: (rest ++ w) := by simp
      rw [hjoin]
      have hdrw : (d :: rest) ++ w = d :: (rest ++ w) := by simp
      rw [hdrw] at ihh
      simp only [split_tokens_with_delimiters, ihh, hcd, beq_self_eq_true, if_true]

theorem head_flatten_class (ts : List Str) (b : Bool)
    (hts : altChain ts) (hne : headClassNe b ts) :
    ts.flatten = [] ∨ isWordChar (ts.flatten.headD 0) ≠ b := by
  cases ts with
  | nil => exact Or.inl rfl
  | cons u rest =>
    have hu : uniformTok u := hts.1
    cases u with
    | nil => exact absurd rfl hu.1
    | cons x u' =>
      refine Or.inr ?_
      have : b ≠ tokClass (x :: u') := hne
      simp only [List.flatten, List.cons_append, List.headD, tokClass] at this ⊢
      exact fun hc => this (by rw [hc])

theorem split_flatten (ts : List Str) (h : altChain ts) :
    split_tokens_with_delimiters ts.flatten = ts := by
  induction ts with
  | nil => rfl
  | cons t rest ih =>
    obtain ⟨ht, hne, hch⟩ := h
    have hw := head_flatten_class rest (tokClass t) hch hne
    have : (t :: rest).flatten = t ++ rest.flatten := by simp
    rw [this, split_append t rest.flatten ht hw, ih hch]

theorem altChain_split (s : Str) : altChain (split_tokens_with_delimiters s) := by
  induction s with
  | nil => trivial
  | cons c cs ih =>
    cases cs with
    | nil =>
      refine ⟨⟨by simp, ?_⟩, trivial, trivial⟩
      intro x hx
      simp only [List.mem_singleton] at hx
      simp [hx, tokClass]
    | cons d rest =>
      obtain ⟨r, ts, h⟩ := split_cons d rest
      rw [h] at ih
      obtain ⟨hu, hne, hch⟩ := ih
      simp only [split_tokens_with_delimiters, h]
      cases hb : isWordChar c == isWordChar d
      · simp only [Bool.false_eq_true, if_false]
        have hcd : isWordChar c ≠ isWordChar d := by
          simpa [beq_eq_false_iff_ne] using hb
        refine ⟨⟨by simp, ?_⟩, ?_, hu, hne, hch⟩
        · intro x hx
          simp only [List.mem_singleton] at hx
          simp [hx, tokClass]
        · show tokClass [c] ≠ tokClass (d :: r)
          simpa [tokClass] using hcd
      · simp only [if_true]
        have hcd : isWordChar c = isWordChar d := by simpa using hb
        have hcr : tokClass (c :: d :: r) = tokClass (d :: r) := by
          simp [tokClass, hcd]
        refine ⟨⟨by simp, ?_⟩, ?_, hch⟩
        · intro x hx
          rcases List.mem_cons.mp hx with h1 | h1
          · simp [h1, tokClass]
          · have := hu.2 x h1
            rw [this, hcr]
        · cases ts with
          | nil => trivial
          | cons v ts' =>
            show tokClass (c :: d :: r) ≠ tokClass v
            rw [hcr]
            exact hne

theorem coversExactly_spansOf (ts : List Str) (i : Nat)
    (h : ∀ t ∈ ts, t ≠ []) :
    coversExactly i (spansOf i ts) (i + ts.flatten.length) = true := by
  induction ts generalizing i with
  | nil => simp [spansOf, coversExactly]
  | cons t rest ih =>
    have ht : t ≠ [] := h t (by simp)
    have hlen : 0 < t.length := List.length_pos.mpr ht
    have ihh := ih (i + t.length) (fun u hu => h u (by simp [hu]))
    simp only [spansOf, coversExactly, beq_self_eq_true, Bool.true_and]
    have harith : i + t.length + rest.flatten.length = i + (t :: rest).flatten.length := by
      simp [List.flatten]; omega
    rw [harith] at ihh
    simp only [ihh, Bool.and_true]
    simpa using hlen

/-! ### Case-adapter lemmas -/

theorem preserve_case_lower (src dst : Str) :
    lowerStr (preserve_case src dst) = lowerStr dst := by
  cases src with
  | nil => rfl
  | cons c rest =>
    simp only [preserve_case]
    split_ifs with h1 h2 h3
    · cases dst with
      | nil => rfl
      | cons d ds =>
        simp only [lowerStr, List.map_cons, charToLower_charToUpper, List.map_map]
        congr 1
        exact List.map_congr_left fun x _ => charToLower_charToLower x
    · exact lowerStr_upperStr dst
    · exact lowerStr_lowerStr dst
    · rfl

theorem all_word_lowerStr (v : Str) (h : v.all isWordChar = true) :
    (lowerStr v).all isWordChar = true := by
  simp only [lowerStr, List.all_map, List.all_eq_true] at *
  intro c hc
  simp only [Function.comp_apply, isWordChar_charToLower]
  exact h c hc

theorem all_word_upperStr (v : Str) (h : v.all isWordChar = true) :
    (upperStr v).all isWordChar = true := by
  simp only [upperStr, List.all_map, List.all_eq_true] at *
  intro c hc
  simp only [Function.comp_apply, isWordChar_charToUpper]
  exact h c hc

theorem preserve_case_all_word (src dst : Str) (h : dst.all isWordChar = true) :
    (preserve_case src dst).all isWordChar = true := by
  cases src with
  | nil => exact h
  | cons c rest =>
    simp only [preserve_case]
    split_ifs with h1 h2 h3
    · cases dst with
      | nil => rfl
      | cons d ds =>
        simp only [List.all_cons, Bool.and_eq_true] at h ⊢
        exact ⟨by rw [isWordChar_charToUpper]; exact h.1, all_word_lowerStr ds h.2⟩
    · exact all_word_upperStr dst h
    · exact all_word_lowerStr dst h
    · exact h

theorem preserve_case_ne_nil (src dst : Str) (h : dst ≠ []) :
    preserve_case src dst ≠ [] := by
  cases src with
  | nil => exact h
  | cons c rest =>
    simp only [preserve_case]
    split_ifs with h1 h2 h3
    · cases dst with
      | nil => exact absurd rfl h
      | cons d ds => simp
    · simpa [upperStr] using h
    · simpa [lowerStr] using h
    · exact h

/-! ### Token-substitution lemmas -/

theorem lookup_mem {l : List (Str × Str)} {k v : Str}
    (h : l.lookup k = some v) : ∃ p, p ∈ l ∧ p.2 = v := by
  induction l with
  | nil => simp [List.lookup] at h
  | cons q t ih =>
    obtain ⟨qk, qv⟩ := q
    simp only [List.lookup] at h
    cases hk : k == qk
    · rw [hk] at h
      simp only [cond_false] at h
      obtain ⟨p, hp, hv⟩ := ih h
      exact ⟨p, by simp [hp], hv⟩
    · rw [hk] at h
      simp only [cond_true, Option.some.injEq] at h
      exact ⟨(qk, qv), by simp, h⟩

theorem value_facts (repl : List (Str × Str)) (hg : goodTable repl) {k v : Str}
    (h : (normKeys repl).lookup k = some v) :
    v ≠ [] ∧ v.all isWordChar = true ∧ (normKeys repl).lookup (lowerStr v) = none := by
  obtain ⟨p, hp, hv⟩ := lookup_mem h
  simp only [normKeys, List.mem_map] at hp
  obtain ⟨q, hq, hpq⟩ := hp
  have : q.2 = v := by rw [← hv, ← hpq]
  rw [← this]
  exact hg q hq

theorem is_word_iff (t : Str) :
    is_word t = true ↔ t ≠ [] ∧ t.all isWordChar = true := by
  simp [is_word, List.isEmpty_iff]

theorem uniform_of_all_word (u : Str) (h1 : u ≠ []) (h2 : u.all isWordChar = true) :
    uniformTok u ∧ tokClass u = true := by
  cases u with
  | nil => exact absurd rfl h1
  | cons x xs =>
    simp only [List.all_cons, Bool.and_eq_true] at h2
    have htc : tokClass (x :: xs) = true := by simp [tokClass, h2.1]
    refine ⟨⟨by simp, ?_⟩, htc⟩
    intro c hc
    rw [htc]
    rcases List.mem_cons.mp hc with h3 | h3
    · rw [h3]; exact h2.1
    · exact List.all_eq_true.mp h2.2 c h3

theorem tokenSub_idem (repl : List (Str × Str)) (hg : goodTable repl) (t : Str) :
    tokenSub repl (tokenSub repl t) = tokenSub repl t := by
  by_cases hw : is_word t = true
  · cases hl : (normKeys repl).lookup (lowerStr t) with
    | none => simp [tokenSub, hw, hl]
    | some v =>
      obtain ⟨hv1, hv2, hv3⟩ := value_facts repl hg hl
      have hwp : is_word (preserve_case t v) = true :=
        (is_word_iff _).mpr ⟨preserve_case_ne_nil t v hv1, preserve_case_all_word t v hv2⟩
      simp [tokenSub, hw, hl, hwp, preserve_case_lower, hv3]
  · simp [tokenSub, hw]

theorem tokenSub_uniform (repl : List (Str × Str)) (hg : goodTable repl)
    (t : Str) (h : uniformTok t) :
    uniformTok (tokenSub repl t) ∧ tokClass (tokenSub repl t) = tokClass t := by
  by_cases hw : is_word t = true
  · obtain ⟨ht1, ht2⟩ := (is_word_iff t).mp hw
    have htc : tokClass t = true := (uniform_of_all_word t ht1 ht2).2
    cases hl : (normKeys repl).lookup (lowerStr t) with
    | none =>
      simp only [tokenSub, hw, if_true, hl]
      exact ⟨h, by trivial⟩
    | some v =>
      obtain ⟨hv1, hv2, -⟩ := value_facts repl hg hl
      have hp := uniform_of_all_word (preserve_case t v)
        (preserve_case_ne_nil t v hv1) (preserve_case_all_word t v hv2)
      simp only [tokenSub, hw, if_true, hl]
      exact ⟨hp.1, by rw [hp.2, htc]⟩
  · simp only [tokenSub, hw]
    simp only [Bool.false_eq_true, if_false]
    exact ⟨h, by trivial⟩

theorem altChain_map_tokenSub (repl : List (Str × Str)) (hg : goodTable repl) :
    ∀ ts, altChain ts → altChain (ts.map (tokenSub repl)) := by
  intro ts
  induction ts with
  | nil => intro _; trivial
  | cons t rest ih =>
    rintro ⟨hu, hne, hch⟩
    obtain ⟨hu', htc⟩ := tokenSub_uniform repl hg t hu
    refine ⟨hu', ?_, ih hch⟩
    cases rest with
    | nil => trivial
    | cons u rs =>
      have hub : uniformTok u := hch.1
      obtain ⟨-, htcu⟩ := tokenSub_uniform repl hg u hub
      show tokClass (tokenSub repl t) ≠ tokClass (tokenSub repl u)
      rw [htc, htcu]
      exact hne

/-! ### Claim theorems -/

/-- C3: for every string `s`, the tokens produced by
`split_tokens_with_delimiters` concatenate to exactly `s`; every token is
nonempty and the token spans tile `[0, s.length)` exactly once (non-overlapping,
full coverage); the empty string yields the empty token sequence. -/
theorem claim_C3_tokenizer_reconstruction (s : Str) :
    (split_tokens_with_delimiters s).flatten = s ∧
    (split_tokens_with_delimiters s).all (fun t => !t.isEmpty) = true ∧
    coversExactly 0 (spansOf 0 (split_tokens_with_delimiters s)) s.length = true ∧
    split_tokens_with_delimiters ([] : Str) = [] := by
  refine ⟨flatten_split s, ?_, ?_, rfl⟩
  · rw [List.all_eq_true]
    intro t ht
    have := split_mem_ne_nil s t ht
    simpa [List.isEmpty_iff] using this
  · have h := coversExactly_spansOf (split_tokens_with_delimiters s) 0 (split_mem_ne_nil s)
    rw [flatten_split s] at h
    simpa using h

/-- C9, counterexample: with the table {a -> "b c", c -> "d"} no replacement
value is itself a table key (the side condition of the claim holds verbatim),
yet applying `apply_replacements` twice to "a" gives "b d" while applying it
once gives "b c" - the claim as stated is false. -/
theorem claim_C9_counterexample :
    (∀ p ∈ tblC9, ∀ q ∈ tblC9, p.2 ≠ q.1) ∧
    apply_replacements (apply_replacements ("a".codes) tblC9) tblC9 ≠
      apply_replacements ("a".codes) tblC9 := by
  constructor
  · decide
  · decide

/-- C9, amended: applying `apply_replacements` twice with the same table
yields the same result as applying it once, provided every replacement value
is a nonempty single word token whose lowercase form is not a (lowercased)
table key - the counterexample shows the original side condition ("no
replacement value is itself a table key") is too weak, because a value may
contain a key as one of its word tokens, or hit a key after the
case-insensitive normalization. -/
theorem claim_C9_amended (text : Str) (repl : List (Str × Str))
    (hg : goodTable repl) :
    apply_replacements (apply_replacements text repl) repl =
      apply_replacements text repl := by
  by_cases h0 : (text.isEmpty || repl.isEmpty) = true
  · have hi : apply_replacements text repl = text := by
      simp [apply_replacements, h0]
    rw [hi]
    exact hi
  · simp only [Bool.or_eq_true, not_or, Bool.not_eq_true] at h0
    obtain ⟨hte, hre⟩ := h0
    have hR : apply_replacements text repl
        = ((split_tokens_with_delimiters text).map (tokenSub repl)).flatten := by
      simp [apply_replacements, hte, hre]
    have hmap := altChain_map_tokenSub repl hg _ (altChain_split text)
    have hsplitR := split_flatten _ hmap
    have htne : text ≠ [] := by
      intro h
      rw [h] at hte
      simp at hte
    obtain ⟨c, cs, hcc⟩ : ∃ c cs, text = c :: cs := by
      cases text with
      | nil => exact absurd rfl htne
      | cons a as => exact ⟨a, as, rfl⟩
    obtain ⟨r, ts2, hsp⟩ := split_cons c cs
    have hone : tokenSub repl (c :: r) ≠ [] := by
      have halt2 := altChain_split (c :: cs)
      rw [hsp] at halt2
      exact (tokenSub_uniform repl hg _ halt2.1).1.1
    have hRne : (((split_tokens_with_delimiters text).map (tokenSub repl)).flatten).isEmpty
        = false := by
      rw [hcc, hsp]
      simp only [List.map_cons, List.flatten_cons]
      cases hx : tokenSub repl (c :: r) with
      | nil => exact absurd hx hone
      | cons y ys => simp
    have houter : apply_replacements (apply_replacements text repl) repl
        = (((split_tokens_with_delimiters text).map (tokenSub repl)).map
            (tokenSub repl)).flatten := by
      rw [hR]
      simp [apply_replacements, hRne, hre, hsplitR]
    rw [houter, hR, List.map_map]
    congr 1
    apply List.map_congr_left
    intro t _
    simpa using tokenSub_idem repl hg t

/-- C9, witness: the amended idempotence applied to the concrete table
{славо -> слово} and the text "Славо". -/
theorem claim_C9_witness :
    apply_replacements (apply_replacements ("Славо".codes) tblC8) tblC8 =
      apply_replacements ("Славо".codes) tblC8 :=
  claim_C9_amended ("Славо".codes) tblC8 (by decide)

theorem pyIsLower_any_lower {s : Str} (h : pyIsLower s = true) :
    ∃ x ∈ s, charIsLower x = true := by
  simp only [pyIsLower, Bool.and_eq_true, List.any_eq_true, List.all_eq_true] at h
  obtain ⟨⟨x, hx, hcx⟩, hall⟩ := h
  have hh := hall x hx
  simp only [hcx, Bool.not_true, Bool.false_or] at hh
  exact ⟨x, hx, hh⟩

theorem pyIsUpper_any_upper {s : Str} (h : pyIsUpper s = true) :
    ∃ x ∈ s, charIsUpper x = true := by
  simp only [pyIsUpper, Bool.and_eq_true, List.any_eq_true, List.all_eq_true] at h
  obtain ⟨⟨x, hx, hcx⟩, hall⟩ := h
  have hh := hall x hx
  simp only [hcx, Bool.not_true, Bool.false_or] at hh
  exact ⟨x, hx, hh⟩

theorem pyIsUpper_all_upper {s : Str} (h : pyIsUpper s = true) :
    ∀ x ∈ s, isCased x = true → charIsUpper x = true := by
  simp only [pyIsUpper, Bool.and_eq_true, List.all_eq_true] at h
  intro x hx hcx
  have hh := h.2 x hx
  simp only [hcx, Bool.not_true, Bool.false_or] at hh
  exact hh

theorem pyIsLower_all_lower {s : Str} (h : pyIsLower s = true) :
    ∀ x ∈ s, isCased x = true → charIsLower x = true := by
  simp only [pyIsLower, Bool.and_eq_true, List.all_eq_true] at h
  intro x hx hcx
  have hh := h.2 x hx
  simp only [hcx, Bool.not_true, Bool.false_or] at hh
  exact hh

/-- C5, counterexample: the claim asserts apply_case("PriVet", "hello") =
"hello" for the case adapter and cites `_match_case_like`, but
`_match_case_like` maps the mixed-case sample "PriVet" (first character
uppercase) to "Hello", not "hello". -/
theorem claim_C5_counterexample :
    _match_case_like ("PriVet".codes) ("hello".codes) = ("Hello".codes) ∧
    ("Hello".codes) ≠ ("hello".codes) := by
  constructor
  · decide
  · decide

/-- C5, amended: `preserve_case` (the asr_postprocess case adapter) satisfies
the four claimed rules - fully-uppercase sample yields the target uppercased,
strict-titlecase sample yields first character uppercased and rest lowercased,
fully-lowercase sample yields the target lowercased, and any other sample
(mixed case, or empty-of-cased) leaves the target unmodified.
`_match_case_like` (the postprocess variant) diverges from rule 4: for any
sample that is not fully uppercase but whose first character is uppercase it
returns the target with only the first character uppercased and the rest
untouched, so `_match_case_like "PriVet" "hello" = "Hello"`. -/
theorem claim_C5_amended :
    (∀ s t : Str, pyIsUpper s = true → preserve_case s t = upperStr t) ∧
    (∀ (c : Nat) (rest t : Str), charIsUpper c = true → pyIsLower rest = true →
      preserve_case (c :: rest) t =
        (match t with | [] => ([] : Str) | d :: ds => charToUpper d :: lowerStr ds)) ∧
    (∀ s t : Str, pyIsLower s = true → preserve_case s t = lowerStr t) ∧
    (∀ (c : Nat) (rest t : Str), (charIsUpper c && pyIsLower rest) = false →
      pyIsUpper (c :: rest) = false → pyIsLower (c :: rest) = false →
      preserve_case (c :: rest) t = t) ∧
    (∀ t : Str, preserve_case [] t = t) ∧
    (∀ (c : Nat) (rest t : Str), pyIsUpper (c :: rest) = false → charIsUpper c = true →
      _match_case_like (c :: rest) t =
        (match t with | [] => ([] : Str) | d :: ds => charToUpper d :: ds)) := by
  refine ⟨?_, ?_, ?_, ?_, ?_, ?_⟩
  · intro s t h
    cases s with
    | nil => simp [pyIsUpper] at h
    | cons c rest =>
      have hb : (charIsUpper c && pyIsLower rest) = false := by
        cases hx : charIsUpper c && pyIsLower rest
        · rfl
        · have hrl : pyIsLower rest = true := by
            simp only [Bool.and_eq_true] at hx
            exact hx.2
          obtain ⟨x, hx2, hlx⟩ := pyIsLower_any_lower hrl
          have hcx : isCased x = true := by simp [isCased, hlx]
          have hux := pyIsUpper_all_upper h x (List.mem_cons_of_mem c hx2) hcx
          exact absurd ⟨hux, hlx⟩ (not_upper_and_lower x)
      simp only [preserve_case, hb, Bool.false_eq_true, if_false, h, if_true]
  · intro c rest t hc hr
    simp only [preserve_case, hc, hr, Bool.and_self, if_true]
  · intro s t h
    cases s with
    | nil => simp [pyIsLower] at h
    | cons c rest =>
      have hcu : charIsUpper c = false := by
        cases hx : charIsUpper c
        · rfl
        · have hcx : isCased c = true := by simp [isCased, hx]
          have hlc := pyIsLower_all_lower h c (List.mem_cons_self c rest) hcx
          exact absurd ⟨hx, hlc⟩ (not_upper_and_lower c)
      have hu : pyIsUpper (c :: rest) = false := by
        cases hx : pyIsUpper (c :: rest)
        · rfl
        · obtain ⟨x, hx2, hux⟩ := pyIsUpper_any_upper hx
          have hcx : isCased x = true := by simp [isCased, hux]
          have hlx := pyIsLower_all_lower h x hx2 hcx
          exact absurd ⟨hux, hlx⟩ (not_upper_and_lower x)
      simp only [preserve_case, hcu, Bool.false_and, Bool.false_eq_true, if_false,
        hu, h, if_true]
  · intro c rest t hb hu hl
    simp only [preserve_case, hb, Bool.false_eq_true, if_false, hu, hl]
  · intro t
    rfl
  · intro c rest t hu hc
    simp only [_match_case_like, hu, Bool.false_eq_true, if_false, List.headD, hc, if_true]

/-- C5, witness: the amended rules applied to the examples of the spec -
"ПРИВЕТ"/"Привет"/"привет"/mixed against the target "hello" - and the
divergence example of `_match_case_like`. -/
theorem claim_C5_witness :
    preserve_case ("ПРИВЕТ".codes) ("hello".codes) = ("HELLO".codes) ∧
    preserve_case ("Привет".codes) ("hello".codes) = ("Hello".codes) ∧
    preserve_case ("привет".codes) ("HeLLo".codes) = ("hello".codes) ∧
    preserve_case ("PriVet".codes) ("hello".codes) = ("hello".codes) ∧
    _match_case_like ("PriVet".codes) ("hello".codes) = ("Hello".codes) := by
  refine ⟨?_, ?_, ?_, ?_, ?_⟩
  · exact (claim_C5_amended.1 ("ПРИВЕТ".codes) ("hello".codes) (by decide)).trans (by decide)
  · exact (claim_C5_amended.2.1 1055 ("ривет".codes) ("hello".codes) (by decide)
      (by decide)).trans (by decide)
  · exact (claim_C5_amended.2.2.1 ("привет".codes) ("HeLLo".codes) (by decide)).trans
      (by decide)
  · exact claim_C5_amended.2.2.2.1 80 ("riVet".codes) ("hello".codes) (by decide)
      (by decide) (by decide)
  · exact (claim_C5_amended.2.2.2.2.2 80 ("riVet".codes) ("hello".codes) (by decide)
      (by decide)).trans (by decide)

theorem mem_insertDesc {x a : Str × Int} {l : List (Str × Int)}
    (h : x ∈ insertDesc a l) : x = a ∨ x ∈ l := by
  induction l with
  | nil => exact Or.inl (by simpa [insertDesc] using h)
  | cons y ys ih =>
    simp only [insertDesc] at h
    split_ifs at h
    · rcases List.mem_cons.mp h with h1 | h1
      · exact Or.inr (by simp [h1])
      · rcases ih h1 with h2 | h2
        · exact Or.inl h2
        · exact Or.inr (by simp [h2])
    · simpa using h

theorem mem_sortDesc {x : Str × Int} {l : List (Str × Int)}
    (h : x ∈ sortDesc l) : x ∈ l := by
  induction l with
  | nil => simp [sortDesc] at h
  | cons y ys ih =>
    simp only [sortDesc, List.foldr_cons] at h
    rcases mem_insertDesc h with h1 | h1
    · simp [h1]
    · exact List.mem_cons_of_mem y (ih h1)

theorem scoreLoopAux_all_none (f : Str → Option Int) (l : List (Str × Int))
    (best : Str) (bs : Option Int) (h : ∀ c ∈ l, f c.1 = none) :
    scoreLoopAux f l best bs = best := by
  induction l generalizing best bs with
  | nil => rfl
  | cons c rest ih =>
    have hc := h c (by simp)
    simp only [scoreLoopAux, hc]
    exact ih best bs (fun d hd => h d (by simp [hd]))

/-- C6, counterexample: with candidates [("a", 1), ("b", 0)] and a scorer
that fails on every candidate, `rerank_with_language_model "x" ...` returns
the input text "x", not the top candidate "a" claimed by the spec. -/
theorem claim_C6_counterexample :
    rerank_with_language_model ("x".codes) genC6 (some failAllC6) 3 = ("x".codes) ∧
    ("x".codes) ≠ ("a".codes) := by
  constructor
  · decide
  · decide

/-- C6, amended: with no scoring function the rerank adapter returns the
first candidate of the descending stable sort by prior score (truncated to
top_k); a scorer failure on one candidate skips exactly that candidate (the
scoring loop equals the loop over the non-failing candidates); but when the
scorer fails on EVERY candidate the adapter returns the text argument passed
to it - the pre-rerank input - not candidates[0]. -/
theorem claim_C6_amended :
    (∀ (text : Str) (gen : Str → Option (List (Str × Int)))
       (cands : List (Str × Int)) (k : Nat), gen text = some cands → cands ≠ [] →
       rerank_with_language_model text gen none k =
         (((sortDesc cands).take k).headD ([], 0)).1) ∧
    (∀ (f : Str → Option Int) (l : List (Str × Int)) (text : Str),
       scoreLoopAux f l text none =
         scoreLoopAux f (l.filter (fun c => (f c.1).isSome)) text none) ∧
    (∀ (text : Str) (gen : Str → Option (List (Str × Int)))
       (cands : List (Str × Int)) (f : Str → Option Int) (k : Nat),
       gen text = some cands → (∀ c ∈ cands, f c.1 = none) →
       rerank_with_language_model text gen (some f) k = text) := by
  refine ⟨?_, ?_, ?_⟩
  · intro text gen cands k hgen hne
    have he : cands.isEmpty = false := by
      cases cands with
      | nil => exact absurd rfl hne
      | cons c cs => rfl
    simp [rerank_with_language_model, hgen, he]
  · intro f l text
    suffices h : ∀ (l : List (Str × Int)) (best : Str) (bs : Option Int),
        scoreLoopAux f l best bs =
          scoreLoopAux f (l.filter (fun c => (f c.1).isSome)) best bs by
      exact h l text none
    intro l
    induction l with
    | nil => intro best bs; rfl
    | cons c rest ih =>
      intro best bs
      cases hc : f c.1 with
      | none =>
        simp only [scoreLoopAux, hc, List.filter_cons, Option.isSome_none,
          Bool.false_eq_true, if_false]
        exact ih best bs
      | some s =>
        simp only [scoreLoopAux, hc, List.filter_cons, Option.isSome_some, if_true]
        cases bs with
        | none => simp only [scoreLoopAux, hc]; exact ih c.1 (some s)
        | some b =>
          simp only [scoreLoopAux, hc]
          by_cases hb : (decide (b < s)) = true
          · simp only [hb, if_true]
            exact ih c.1 (some s)
          · simp only [hb, Bool.false_eq_true, if_false]
            exact ih best (some b)
  · intro text gen cands f k hgen hall
    by_cases he : cands.isEmpty = true
    · simp [rerank_with_language_model, hgen, he]
    · have he' : cands.isEmpty = false := by simpa using he
      simp only [rerank_with_language_model, hgen, he', Bool.false_eq_true, if_false]
      apply scoreLoopAux_all_none
      intro c hc
      exact hall c (mem_sortDesc (List.mem_of_mem_take hc))

/-- C6, witness: the amended statements applied at the concrete fixtures -
no scorer returns "a" (top prior-scored candidate); an always-failing scorer
returns the input text "x". -/
theorem claim_C6_witness :
    rerank_with_language_model ("x".codes) genC6 none 3 = ("a".codes) ∧
    rerank_with_language_model ("x".codes) genTieC6 none 3 = ("a".codes) ∧
    rerank_with_language_model ("x".codes) genC6 (some failAllC6) 3 = ("x".codes) := by
  refine ⟨?_, ?_, ?_⟩
  · exact (claim_C6_amended.1 ("x".codes) genC6 ([ ("a".codes, 1), ("b".codes, 0) ]) 3
      rfl (by decide)).trans (by decide)
  · exact (claim_C6_amended.1 ("x".codes) genTieC6 ([ ("a".codes, 1), ("b".codes, 1) ]) 3
      rfl (by decide)).trans (by decide)
  · exact claim_C6_amended.2.2 ("x".codes) genC6 ([ ("a".codes, 1), ("b".codes, 0) ])
      failAllC6 3 rfl (fun c _ => rfl)

theorem dedup_foldl_prefix (l : List Str) :
    ∀ acc, ∃ e, l.foldl (fun acc c => if acc.contains c then acc else acc ++ [c]) acc
      = acc ++ e := by
  induction l with
  | nil => intro acc; exact ⟨[], by simp⟩
  | cons c rest ih =>
    intro acc
    simp only [List.foldl_cons]
    by_cases hc : acc.contains c = true
    · rw [if_pos hc]
      exact ih acc
    · obtain ⟨e, he⟩ := ih (acc ++ [c])
      refine ⟨[c] ++ e, ?_⟩
      rw [if_neg hc, he, List.append_assoc]

theorem dedupFirst_headD (l : List Str) : (dedupFirst l).headD [] = l.headD [] := by
  cases l with
  | nil => rfl
  | cons a rest =>
    have h0 : dedupFirst (a :: rest) =
        rest.foldl (fun acc c => if acc.contains c then acc else acc ++ [c]) [a] := by
      simp [dedupFirst]
    obtain ⟨e, he⟩ := dedup_foldl_prefix rest [a]
    rw [h0, he]
    rfl

/-- C1, counterexample: with a loaded index suggesting "пойду" for "пайду"
and LM rerank disabled, the fuzzy-corrected text is "пойду", yet
postprocess_text_ru returns "пайду": because the fuzzy correction changed
the text, the dictionary-corrected (pre-fuzzy) text is inserted at position 0
of the candidate list and is what the pipeline returns, so the first
candidate is NOT the dictionary-and-fuzzy-corrected text. -/
theorem claim_C1_counterexample :
    (postprocess_text_ru none envC1 none none ("пайду".codes)).1 = ("пайду".codes) ∧
    (_correct_with_symspell lkpC1 ("пайду".codes) 3).1 = ("пойду".codes) ∧
    ("пайду".codes) ≠ ("пойду".codes) := by
  refine ⟨by decide, by decide, by decide⟩

/-- C1, amended: with LM rerank disabled the pipeline returns the first
element of the deduplicated candidate list, and that first element is the
dictionary-corrected text `t1` itself whenever `t1` is not among the
fuzzy-generated candidates (in particular whenever fuzzy correction changed
the text and no variant restored it); it is the fuzzy-corrected text exactly
when fuzzy correction is present in the candidate set - e.g. whenever the
fuzzy stage leaves the text unchanged, in which case the claimed behaviour
holds. -/
theorem claim_C1_amended :
    (∀ (sym : Option SymIdx) (lm : Option (List Str → Str)) (t1 : Str),
       pipelineTail sym lm false t1 =
         (if (candidatesOf sym t1).contains t1 then (candidatesOf sym t1).headD []
          else t1)) ∧
    (∀ (lk : SymIdx) (lm : Option (List Str → Str)) (t1 : Str),
       (_correct_with_symspell lk t1 3).1 = t1 →
       pipelineTail (some lk) lm false t1 = (_correct_with_symspell lk t1 3).1) := by
  have p1 : ∀ (sym : Option SymIdx) (lm : Option (List Str → Str)) (t1 : Str),
      pipelineTail sym lm false t1 =
        (if (candidatesOf sym t1).contains t1 then (candidatesOf sym t1).headD []
         else t1) := by
    intro sym lm t1
    by_cases hc : (candidatesOf sym t1).contains t1 = true
    · simp only [pipelineTail, hc, if_true, Bool.false_and, Bool.false_eq_true, if_false]
      exact dedupFirst_headD _
    · have hc' : (candidatesOf sym t1).contains t1 = false := by simpa using hc
      simp only [pipelineTail, hc', Bool.false_eq_true, if_false, Bool.false_and]
      rw [dedupFirst_headD]
      rfl
  refine ⟨p1, ?_⟩
  intro lk lm t1 h
  rw [p1]
  have hcand : candidatesOf (some lk) t1 =
      (_correct_with_symspell lk t1).1 ::
        _build_sentence_candidates (_correct_with_symspell lk t1).1
          (findWordMatches t1) (_correct_with_symspell lk t1).2 := rfl
  rw [hcand]
  have hmem : ((_correct_with_symspell lk t1).1 ::
      _build_sentence_candidates (_correct_with_symspell lk t1).1
        (findWordMatches t1) (_correct_with_symspell lk t1).2).contains t1 = true := by
    rw [List.contains_cons]
    have : (t1 == (_correct_with_symspell lk t1).1) = true := by
      rw [h]
      exact beq_self_eq_true t1
    simp [this]
  rw [hmem, if_pos rfl]
  simp [List.headD]

/-- C1, witness: with no index the pipeline returns the dictionary-corrected
text; with an index whose suggestions never differ from the queried word the
fuzzy stage leaves the text unchanged and the pipeline returns that
(dictionary-and-fuzzy-) corrected text, as the amended claim states. -/
theorem claim_C1_witness :
    pipelineTail none none false ("x".codes) = ("x".codes) ∧
    pipelineTail (some lkpId) none false ("abc".codes) = ("abc".codes) := by
  constructor
  · exact (claim_C1_amended.1 none none ("x".codes)).trans (by decide)
  · exact (claim_C1_amended.2 lkpId none ("abc".codes) (by decide)).trans (by decide)

/-- C2: `postprocess_transcription` (src/pipeline.py) calls
postprocess_text_ru / postprocess_text_kk with the keyword argument
`use_language_model`, which neither function accepts (their keyword-only
parameters are dictionary_path, enable_lm_rerank, lm_model_name,
max_edit_distance), so the call raises TypeError for every non-empty text
instead of returning a string. -/
theorem claim_C2_pipeline_kwargs :
    acceptsKeywords postprocess_text_ru_keyword_params pipeline_call_keywords = false ∧
    acceptsKeywords postprocess_text_kk_keyword_params pipeline_call_keywords = false := by
  exact ⟨by decide, by decide⟩

/-- C4: evaluation of `_correct_with_symspell` at the failing input.  With
suggestions of different length than the tokens ("aaa" -> "xxxx",
"bbb" -> "zzz"), the second splice uses the stale span (4, 7) of the original
text against the already-lengthened character list, so the output is
"xxxxzzzb": the delimiter space between the tokens is destroyed instead of
the frame-preserving "xxxx zzz".  A single replacement (third conjunct) keeps
the frame, confirming the corruption comes from stale spans after a
length-changing replacement. -/
theorem claim_C4_code_eval :
    (_correct_with_symspell lkpC4 ("aaa bbb".codes) 3).1 = ("xxxxzzzb".codes) ∧
    ("xxxxzzzb".codes) ≠ ("xxxx zzz".codes) ∧
    (_correct_with_symspell lkpC4 ("aaa".codes) 3).1 = ("xxxx".codes) := by
  refine ⟨by decide, by decide, by decide⟩

/-- C7: when no index is available - the SymSpell import failed, or
constructing/loading the dictionary resource failed (missing or malformed
file, modelled by `mkIndex` returning none) - the loader returns `none`
without propagating anything; the pipeline tail with no index returns the
dictionary-corrected text unchanged for every LM setting (the fuzzy stage is
a no-op and no ambiguity is ever produced); consequently the whole pipeline
returns exactly the dictionary-pass result. -/
theorem claim_C7_noop_on_missing_index :
    (∀ (env : LoadEnv) (defP : Str) (p : Option Str),
       env.symspellAvailable = false ∨
         env.mkIndex (p.getD (env.envDictPath.getD defP)) = none →
       _load_symspell env defP none p = (none, none)) ∧
    (∀ (lm : Option (List Str → Str)) (en : Bool) (t1 : Str),
       pipelineTail none lm en t1 = t1) ∧
    (∀ (table : List (Str × Str)) (defP : Str) (env : LoadEnv)
       (p : Option Str) (a : Option Bool) (text : Str),
       env.symspellAvailable = false ∨
         env.mkIndex (p.getD (env.envDictPath.getD defP)) = none →
       postprocess_cached table defP env none p a text =
         ((if text.isEmpty then text else _replace_common_errors text table), none)) := by
  have p1 : ∀ (env : LoadEnv) (defP : Str) (p : Option Str),
      env.symspellAvailable = false ∨
        env.mkIndex (p.getD (env.envDictPath.getD defP)) = none →
      _load_symspell env defP none p = (none, none) := by
    intro env defP p h
    rcases h with h | h
    · simp [_load_symspell, h]
    · cases ha : env.symspellAvailable
      · simp [_load_symspell, ha]
      · simp [_load_symspell, ha, h]
  have p2 : ∀ (lm : Option (List Str → Str)) (en : Bool) (t1 : Str),
      pipelineTail none lm en t1 = t1 := by
    intro lm en t1
    have hd : dedupFirst [t1] = [t1] := by simp [dedupFirst]
    simp [pipelineTail, candidatesOf, hd]
  refine ⟨p1, p2, ?_⟩
  intro table defP env p a text h
  by_cases ht : text.isEmpty = true
  · simp [postprocess_cached, ht]
  · have ht' : text.isEmpty = false := by simpa using ht
    simp only [postprocess_cached, ht', Bool.false_eq_true, if_false, p1 env defP p h,
      p2 env.lmRank (a.getD env.lmEnvFlag)]

/-- C7, witness: with a present symspellpy but a missing/unloadable
dictionary, the loader yields none, and postprocess_text_ru degrades to the
dictionary pass alone: "счас" -> "сейчас". -/
theorem claim_C7_witness :
    _load_symspell envFail ruDefaultDictPath none none = (none, none) ∧
    pipelineTail none none true ("счас".codes) = ("счас".codes) ∧
    (postprocess_text_ru none envFail none none ("счас".codes)).1 = ("сейчас".codes) := by
  refine ⟨claim_C7_noop_on_missing_index.1 envFail ruDefaultDictPath none (Or.inr rfl),
    claim_C7_noop_on_missing_index.2.1 none true ("счас".codes), ?_⟩
  have h := claim_C7_noop_on_missing_index.2.2 _COMMON_REPLACEMENTS_RU ruDefaultDictPath
    envFail none none ("счас".codes) (Or.inr rfl)
  exact (congrArg Prod.fst h).trans (by decide)

/-- C8: the dictionary replacer replaces a word token iff its lowercase form
is a table key, reapplying the case of the original token: with {славо -> слово},
"Славо" -> "Слово", "СЛАВО" -> "СЛОВО", and the non-matching "слававо" is
unchanged - for both the token-wise `apply_replacements` and the regex-based
`_replace_common_errors`; and whenever no word token of the text matches any
key, `apply_replacements` returns the text unchanged (non-word tokens and
unmatched words pass through). -/
theorem claim_C8_dictionary_replacer :
    apply_replacements ("Славо".codes) tblC8 = ("Слово".codes) ∧
    apply_replacements ("СЛАВО".codes) tblC8 = ("СЛОВО".codes) ∧
    apply_replacements ("слававо".codes) tblC8 = ("слававо".codes) ∧
    _replace_common_errors ("Славо".codes) tblC8 = ("Слово".codes) ∧
    _replace_common_errors ("СЛАВО".codes) tblC8 = ("СЛОВО".codes) ∧
    _replace_common_errors ("слававо".codes) tblC8 = ("слававо".codes) ∧
    (∀ (text : Str) (repl : List (Str × Str)),
       ((split_tokens_with_delimiters text).all
         (fun t => !(is_word t) || ((normKeys repl).lookup (lowerStr t)).isNone)) = true →
       apply_replacements text repl = text) := by
  refine ⟨by decide, by decide, by decide, by decide, by decide, by decide, ?_⟩
  intro text repl h
  by_cases h0 : (text.isEmpty || repl.isEmpty) = true
  · simp [apply_replacements, h0]
  · have h0' : (text.isEmpty || repl.isEmpty) = false := by simpa using h0
    simp only [apply_replacements, h0', Bool.false_eq_true, if_false]
    have hmap : (split_tokens_with_delimiters text).map (tokenSub repl)
        = split_tokens_with_delimiters text := by
      have : ∀ t ∈ split_tokens_with_delimiters text, tokenSub repl t = t := by
        intro t ht
        have hh := List.all_eq_true.mp h t ht
        by_cases hw : is_word t = true
        · simp only [hw, Bool.not_true, Bool.false_or] at hh
          have : (normKeys repl).lookup (lowerStr t) = none :=
            Option.isNone_iff_eq_none.mp hh
          simp [tokenSub, hw, this]
        · simp [tokenSub, hw]
      calc (split_tokens_with_delimiters text).map (tokenSub repl)
          = (split_tokens_with_delimiters text).map id :=
            List.map_congr_left (fun t ht => this t ht)
        _ = split_tokens_with_delimiters text := List.map_id _
    rw [hmap, flatten_split]

/-- C8, witness: the pass-through clause applied to a text none of whose
word tokens matches a key of the table. -/
theorem claim_C8_witness :
    apply_replacements ("Я в!".codes) tblC8 = ("Я в!".codes) :=
  claim_C8_dictionary_replacer.2.2.2.2.2.2 ("Я в!".codes) tblC8 (by decide)

/-- C10: once the module-level SymSpell cache is populated (the first
successful load stored `idx`), every later call returns the cached index and
ignores its dictionary_path argument entirely: two later calls on the same
text that differ only in dictionary_path return identical results (text and
cache), for both the Russian and the Kazakh pipeline, and the cache itself
is never replaced. -/
theorem claim_C10_cache_ignores_path :
    (∀ (env : LoadEnv) (idx : SymIdx) (p p' : Option Str) (a : Option Bool) (t : Str),
       postprocess_text_ru (some idx) env p a t = postprocess_text_ru (some idx) env p' a t) ∧
    (∀ (env : LoadEnv) (idx : SymIdx) (p p' : Option Str) (a : Option Bool) (t : Str),
       postprocess_text_kk (some idx) env p a t = postprocess_text_kk (some idx) env p' a t) ∧
    (∀ (env : LoadEnv) (defP : Str) (idx : SymIdx) (p : Option Str),
       _load_symspell env defP (some idx) p = (some idx, some idx)) ∧
    (∀ (env : LoadEnv) (idx : SymIdx) (p : Option Str) (a : Option Bool) (t : Str),
       (postprocess_text_ru (some idx) env p a t).2 = some idx) := by
  refine ⟨?_, ?_, fun _ _ _ _ => rfl, ?_⟩
  · intro env idx p p' a t
    by_cases h : t.isEmpty = true
    · simp [postprocess_text_ru, postprocess_cached, h]
    · have h' : t.isEmpty = false := by simpa using h
      simp [postprocess_text_ru, postprocess_cached, h', _load_symspell]
  · intro env idx p p' a t
    by_cases h : t.isEmpty = true
    · simp [postprocess_text_kk, postprocess_cached, h]
    · have h' : t.isEmpty = false := by simpa using h
      simp [postprocess_text_kk, postprocess_cached, h', _load_symspell]
  · intro env idx p a t
    by_cases h : t.isEmpty = true
    · simp [postprocess_text_ru, postprocess_cached, h]
    · have h' : t.isEmpty = false := by simpa using h
      simp [postprocess_text_ru, postprocess_cached, h', _load_symspell]
